import Mathlib

/-!
Verification of the task-record persistence / pagination layer and the
byte-range media server of the wanx_ui repository, against its
natural-language specification.

The Python source is shallowly embedded: dictionaries become association
lists over a small JSON value type, the per-task record files of one
`(task_type, owner)` directory become a list of file entries (name stem,
mtime, parse result), and each operation of `CacheService`,
`StorageService` and `MediaHandler` is translated into a pure Lean
function following the source line by line.  Machine timestamps are
modelled as integers (the proofs only use their ordering), and the
happy-path filesystem is assumed: an `open`/`json.dump` that the source
wraps in a `try/except` and absorbs is modelled as succeeding.
-/

namespace WanxUI

/-- A JSON scalar value, as stored in a task-record dictionary.
`null` also stands for Python `None` / an absent `dict.get` result. -/
inductive JVal
  | s (v : String)
  | n (v : Int)
  | b (v : Bool)
  | null
deriving DecidableEq, Repr

/-- Python truthiness of a `JVal` (`if x:`): empty string, zero, `False`
and `None` are falsy. -/
def truthy : JVal → Bool
  | .s v => v ≠ ""
  | .n v => v ≠ 0
  | .b v => v
  | .null => false

/-- Python `str(x)` as used by f-strings when building a file name. -/
def pyStr : JVal → String
  | .s v => v
  | .n v => toString v
  | .b true => "True"
  | .b false => "False"
  | .null => "None"

/-- A task-record dictionary: keys in insertion order, keys unique when
built by the modelled operations. -/
abbrev Dict := List (String × JVal)

/-- `d.get(k)` — first occurrence (keys are unique in a Python dict). -/
def dGet : Dict → String → Option JVal
  | [], _ => none
  | (k', v) :: rest, k => if k' = k then some v else dGet rest k

/-- `d[k] = v` — overwrite in place if the key exists, else append
(Python dicts keep insertion order). -/
def dSet : Dict → String → JVal → Dict
  | [], k, v => [(k, v)]
  | (k', v') :: rest, k, v =>
    if k' = k then (k, v) :: rest else (k', v') :: dSet rest k v

/-- `d.update(u)` — shallow merge: every key of `u` overwrites `d`. -/
def dUpdate (d u : Dict) : Dict :=
  u.foldl (fun a kv => dSet a kv.1 kv.2) d

/-- Last occurrence of a key in an association list (the binding a
Python dict built from this list would hold). -/
def dGetLast : Dict → String → Option JVal
  | [], _ => none
  | (k', v) :: rest, k =>
    match dGetLast rest k with
    | some w => some w
    | none => if k' = k then some v else none

theorem dGet_dSet (d : Dict) (k : String) (v : JVal) (k' : String) :
    dGet (dSet d k v) k' = if k = k' then some v else dGet d k' := by
  induction d with
  | nil =>
    by_cases h : k = k' <;> simp [dSet, dGet, h]
  | cons hd tl ih =>
    obtain ⟨k0, v0⟩ := hd
    by_cases h0 : k0 = k
    · subst h0
      by_cases h : k0 = k' <;> simp [dSet, dGet, h]
    · by_cases h : k0 = k'
      · subst h
        have hkk : ¬ k = k0 := fun e => h0 e.symm
        simp [dSet, dGet, h0, hkk]
      · simp [dSet, dGet, h0, h, ih]

/-- Lookup after a shallow merge: a key named in the update takes the
update's (last) value, any other key keeps the original binding. -/
theorem dGet_dUpdate (u d : Dict) (k : String) :
    dGet (dUpdate d u) k =
      match dGetLast u k with
      | some w => some w
      | none => dGet d k := by
  induction u generalizing d with
  | nil => simp [dUpdate, dGetLast]
  | cons hd tl ih =>
    obtain ⟨k0, v0⟩ := hd
    have step : dUpdate d ((k0, v0) :: tl) = dUpdate (dSet d k0 v0) tl := by
      simp [dUpdate]
    rw [step, ih]
    cases h : dGetLast tl k with
    | some w => simp [dGetLast, h]
    | none =>
      by_cases hk : k0 = k
      · subst hk
        simp [dGetLast, h, dGet_dSet]
      · simp [dGetLast, h, hk, dGet_dSet]

/-! ## TaskStore CRUD (`CacheService.add_task`, `CacheService.update_task`)

The `(task_type, owner)` directory is modelled as an association list
from file-name stem to parse result; `none` content models a record
file that fails to parse (`json.load` raising). -/

/-- One task directory: file-name stem ↦ parsed content
(`none` = corrupt file). -/
abbrev CrudStore := List (String × Option Dict)

/-- `os.path.exists` + read: first binding for the stem. -/
def storeGet : CrudStore → String → Option (Option Dict)
  | [], _ => none
  | (k', v) :: rest, k => if k' = k then some v else storeGet rest k

/-- Writing `{stem}.json`: overwrite if present, else create. -/
def storeSet : CrudStore → String → Option Dict → CrudStore
  | [], k, v => [(k, v)]
  | (k', v') :: rest, k, v =>
    if k' = k then (k, v) :: rest else (k', v') :: storeSet rest k v

/-- Observable control-flow outcome of `add_task`.
`raisedInvalidRecord` models the `InvalidRecord` exception the spec
describes; it is present so that the spec's claim is statable — the
source never produces it. -/
inductive CreateStatus
  | written
  | errorLogged
  | raisedInvalidRecord
deriving DecidableEq, Repr

/-- The record as `add_task` stamps it before the `task_id` check:
`created_at` and `task_type` are set first (source lines 155–156). -/
def stampedTask (now : String) (task_data : Dict) : Dict :=
  dSet (dSet task_data "created_at" (.s now)) "task_type" (.s "i2v")

/-- `task_data.get('task_id')` with Python's `None` default. -/
def taskIdOf (d : Dict) : JVal :=
  (dGet d "task_id").getD .null

/-- `CacheService.add_task` (source lines 153–174): stamp
`created_at`/`task_type`; if `task_id` is falsy, log an error and
return without writing; otherwise write `{task_id}.json`
unconditionally (no pre-existence check). -/
def add_task (now : String) (task_data : Dict) (store : CrudStore) :
    CrudStore × CreateStatus :=
  let td := stampedTask now task_data
  let tid := taskIdOf td
  if truthy tid then
    (storeSet store (pyStr tid) (some td), .written)
  else
    (store, .errorLogged)

/-- Observable control-flow outcome of `update_task`. -/
inductive UpdateStatus
  | updated
  | warnedMissing
  | errorLogged
deriving DecidableEq, Repr

/-- The merged record `update_task` writes back: shallow merge of the
partial fields over the existing record, then `updated_at` stamped
(source lines 190–192, stamp after the merge). -/
def mergedTask (now : String) (existing update_data : Dict) : Dict :=
  dSet (dUpdate existing update_data) "updated_at" (.s now)

/-- `CacheService.update_task` (source lines 176–200): if the record
file is absent, log a warning and no-op; if it exists but fails to
parse, `json.load` raises inside the `try` and the handler logs and
no-ops; otherwise merge, stamp `updated_at`, write back. -/
def update_task (now : String) (task_id : String) (update_data : Dict)
    (store : CrudStore) : CrudStore × UpdateStatus :=
  match storeGet store task_id with
  | none => (store, .warnedMissing)
  | some none => (store, .errorLogged)
  | some (some d) =>
    (storeSet store task_id (some (mergedTask now d update_data)), .updated)

/-! ## RangeMediaServer (`MediaHandler.serve_video_with_range`)

The file is a byte list; `os.path.getsize` is its length.  The mtime
appears only inside the ETag f-string, so it is kept as its printed
form.  The two streaming generators read fixed 1 MiB chunks until the
requested amount (or EOF) is reached; their net output — the byte
slice actually sent — is modelled directly. -/

/-- An existing media file: its bytes and `str(os.path.getmtime(path))`
as interpolated into the ETag. -/
structure MediaFile where
  bytes : List Nat
  mtimeRepr : String
deriving DecidableEq, Repr

/-- `f'"{mtime}-{size}"'` (source lines 84 and 112). -/
def etagOf (f : MediaFile) : String :=
  "\"" ++ f.mtimeRepr ++ "-" ++ toString f.bytes.length ++ "\""

/-- Characters Python `int()` strips around the digits (ASCII
whitespace). -/
def isPySpace (c : Char) : Bool :=
  c = ' ' || c = '\t' || c = '\n' || c = '\r'

def digitVal (c : Char) : Option Nat :=
  if '0' ≤ c ∧ c ≤ '9' then some (c.toNat - '0'.toNat) else none

def digitsValAux (acc : Nat) : List Char → Option Nat
  | [] => some acc
  | c :: cs =>
    match digitVal c with
    | none => none
    | some d => digitsValAux (acc * 10 + d) cs

/-- Value of a nonempty all-digit string; `none` otherwise. -/
def digitsVal : List Char → Option Nat
  | [] => none
  | l => digitsValAux 0 l

/-- Python `int(s)`: strip surrounding whitespace, optional sign, then
digits; `none` models `ValueError`.  (Underscore digit separators are
not modelled.) -/
def pyInt (s : List Char) : Option Int :=
  let t := ((s.dropWhile isPySpace).reverse.dropWhile isPySpace).reverse
  match t with
  | '-' :: ds => (digitsVal ds).map (fun v => -(v : Int))
  | '+' :: ds => (digitsVal ds).map (fun v => (v : Int))
  | ds => (digitsVal ds).map (fun v => (v : Int))

/-- `range_header.replace('bytes=', '')` — every occurrence removed,
left to right. -/
def stripBytesEq : List Char → List Char
  | 'b' :: 'y' :: 't' :: 'e' :: 's' :: '=' :: rest => stripBytesEq rest
  | c :: rest => c :: stripBytesEq rest
  | [] => []

/-- Python `str.split('-')`: `''.split('-') == ['']`. -/
def pySplitDash : List Char → List (List Char)
  | [] => [[]]
  | c :: cs =>
    if c = '-' then [] :: pySplitDash cs
    else
      match pySplitDash cs with
      | [] => [[c]]
      | p :: ps => (c :: p) :: ps

/-- Result of the inline Range parsing (source lines 40–47):
`exc` models an uncaught `ValueError` from `int()`. -/
inductive RangeParse
  | exc
  | ok (start : Int) (stop : Option Int)
deriving DecidableEq, Repr

/-- `if match[0]: byte_start = int(match[0])` — empty part keeps the
initial `0`. -/
def parseStartPart : List Char → Option Int
  | [] => some 0
  | p => pyInt p

/-- `if match[1]: byte_end = int(match[1])` — empty part keeps `None`. -/
def parseEndPart : List Char → Option (Option Int)
  | [] => some none
  | p => (pyInt p).map some

/-- The Range-header parse of source lines 40–47: strip `bytes=`, split
on `-`; only a two-part split assigns bounds, anything else keeps
`(0, None)`. -/
def parseRangeHeader (h : List Char) : RangeParse :=
  let parts := pySplitDash (stripBytesEq h)
  if parts.length = 2 then
    match parseStartPart (parts.headD []) with
    | none => .exc
    | some s =>
      match parseEndPart ((parts.drop 1).headD []) with
      | none => .exc
      | some e => .ok s e
  else .ok 0 none

/-- Clamping of the end bound (source lines 49–52): omitted → EOF,
otherwise `min(end, file_size - 1)`. -/
def clampEnd (stop : Option Int) (file_size : Int) : Int :=
  match stop with
  | none => file_size - 1
  | some e => min e (file_size - 1)

/-- Net output of the chunked range generator (source lines 58–72):
the `content_length` bytes from offset `byte_start`, clipped at EOF;
a non-positive remaining count streams nothing. -/
def rangeBody (bytes : List Nat) (start len : Int) : List Nat :=
  (bytes.drop start.toNat).take len.toNat

/-- A response as observed by the web layer.  `notFound` is the 404
JSON error; `exc` an exception escaping the handler. -/
inductive ServeResult
  | notFound
  | exc
  | resp (status : Nat) (contentRange : Option String) (contentLength : Int)
      (acceptRanges cacheControl etag : String) (body : List Nat)
deriving DecidableEq, Repr

/-- The whole-file 200 branch (source lines 87–113). -/
def fullFileResp (f : MediaFile) : ServeResult :=
  .resp 200 none (f.bytes.length : Int) "bytes" "no-cache" (etagOf f) f.bytes

/-- `MediaHandler.serve_video_with_range` (source lines 30–113).
`none` for the file models a missing path; the Range header is absent
(`None`) or the header string, an empty string being falsy. -/
def serve_video_with_range (file : Option MediaFile) (rangeHeader : Option String) :
    ServeResult :=
  match file with
  | none => .notFound
  | some f =>
    let file_size : Int := (f.bytes.length : Int)
    match rangeHeader with
    | none => fullFileResp f
    | some h =>
      if h = "" then fullFileResp f
      else
        match parseRangeHeader h.data with
        | .exc => .exc
        | .ok byte_start stop =>
          let byte_end := clampEnd stop file_size
          let content_length := byte_end - byte_start + 1
          .resp 206
            (some ("bytes " ++ toString byte_start ++ "-" ++ toString byte_end
              ++ "/" ++ toString file_size))
            content_length "bytes" "no-cache" (etagOf f)
            (rangeBody f.bytes byte_start content_length)

/-! ## Theorems for the media server and the CRUD operations -/

/-- C5: for every existing file and every Range header that parses as
`bytes=start-end` (end optional), `serve_video_with_range` returns 206
with `Content-Range: bytes start-end/size`, `Content-Length` equal to
`end - start + 1` for the clamped end (an omitted or oversized end is
clamped to `size - 1`), and exactly the bytes of the file from offset
`start` through the clamped end. -/
theorem serve_range_correct (f : MediaFile) (h : String) (s : Int) (e : Option Int)
    (hne : h ≠ "") (hp : parseRangeHeader h.data = .ok s e) :
    serve_video_with_range (some f) (some h) =
      .resp 206
        (some ("bytes " ++ toString s ++ "-"
          ++ toString (clampEnd e (f.bytes.length : Int))
          ++ "/" ++ toString ((f.bytes.length : Int))))
        (clampEnd e (f.bytes.length : Int) - s + 1) "bytes" "no-cache" (etagOf f)
        ((f.bytes.drop s.toNat).take (clampEnd e (f.bytes.length : Int) - s + 1).toNat) := by
  simp [serve_video_with_range, hne, hp, rangeBody]

/-- Witness for C5: a 10-byte file under `bytes=2-5` yields 206,
`Content-Range: bytes 2-5/10`, `Content-Length` 4 and bytes 2..5. -/
theorem serve_range_correct_witness :
    ("bytes=2-5" ≠ "" ∧
      parseRangeHeader "bytes=2-5".data = RangeParse.ok 2 (some 5)) ∧
    serve_video_with_range (some ⟨[0, 1, 2, 3, 4, 5, 6, 7, 8, 9], "77"⟩)
        (some "bytes=2-5") =
      ServeResult.resp 206 (some "bytes 2-5/10") 4 "bytes" "no-cache" "\"77-10\""
        [2, 3, 4, 5] :=
  ⟨⟨by decide, by decide⟩,
    (serve_range_correct ⟨[0, 1, 2, 3, 4, 5, 6, 7, 8, 9], "77"⟩ "bytes=2-5" 2 (some 5)
      (by decide) (by decide)).trans (by decide)⟩

/-- C6 counterexample: a present but unparseable Range header is not
treated as "no range" — on a 2-byte file the header `oops` produces a
206 partial-content response spanning the whole file, while the
absent-header path produces the claimed 200 response; the two differ. -/
theorem serve_unparseable_cex :
    serve_video_with_range (some ⟨[5, 6], "9"⟩) (some "oops") ≠
      serve_video_with_range (some ⟨[5, 6], "9"⟩) none ∧
    serve_video_with_range (some ⟨[5, 6], "9"⟩) (some "oops") =
      ServeResult.resp 206 (some "bytes 0-1/2") 2 "bytes" "no-cache" "\"9-2\"" [5, 6] ∧
    serve_video_with_range (some ⟨[5, 6], "9"⟩) none =
      ServeResult.resp 200 none 2 "bytes" "no-cache" "\"9-2\"" [5, 6] :=
  ⟨by decide, by decide, by decide⟩

/-- C6 amended: if the Range header is absent the whole file is
streamed with status 200, `Content-Length` = file size,
`Accept-Ranges: bytes`, `Cache-Control: no-cache` and
`ETag "<mtime>-<size>"`; a present header that does not split into
exactly two `-`-separated parts is served through the range branch as
the full range `0..size-1` with status 206 (same headers and body, not
an error); a two-part header whose parts fail integer parsing raises
an uncaught exception. -/
theorem serve_no_range_full (f : MediaFile) :
    serve_video_with_range (some f) none =
      ServeResult.resp 200 none (f.bytes.length : Int) "bytes" "no-cache" (etagOf f)
        f.bytes ∧
    (∀ h : String, h ≠ "" → (pySplitDash (stripBytesEq h.data)).length ≠ 2 →
      serve_video_with_range (some f) (some h) =
        ServeResult.resp 206
          (some ("bytes " ++ toString (0 : Int) ++ "-"
            ++ toString ((f.bytes.length : Int) - 1)
            ++ "/" ++ toString ((f.bytes.length : Int))))
          (f.bytes.length : Int) "bytes" "no-cache" (etagOf f) f.bytes) ∧
    (∀ h : String, h ≠ "" → parseRangeHeader h.data = .exc →
      serve_video_with_range (some f) (some h) = ServeResult.exc) := by
  refine ⟨by simp [serve_video_with_range, fullFileResp], ?_, ?_⟩
  · intro h hne hlen
    have hp : parseRangeHeader h.data = .ok 0 none := by
      simp [parseRangeHeader, hlen]
    simp only [serve_video_with_range, if_neg hne, hp, clampEnd]
    have harith : ((f.bytes.length : Int) - 1) - 0 + 1 = (f.bytes.length : Int) := by ring
    rw [harith]
    simp [rangeBody]
  · intro h hne hp
    simp [serve_video_with_range, hne, hp]

/-- Witness for C6: the unparseable header `oops` on a 1-byte file is
served as 206 over bytes 0..0, and `bytes=x-1` raises. -/
theorem serve_no_range_full_witness :
    ("oops" ≠ "" ∧ (pySplitDash (stripBytesEq "oops".data)).length ≠ 2 ∧
      "bytes=x-1" ≠ "" ∧ parseRangeHeader "bytes=x-1".data = RangeParse.exc) ∧
    serve_video_with_range (some ⟨[5], "3"⟩) (some "oops") =
      ServeResult.resp 206 (some "bytes 0-0/1") 1 "bytes" "no-cache" "\"3-1\"" [5] ∧
    serve_video_with_range (some ⟨[5], "3"⟩) (some "bytes=x-1") = ServeResult.exc :=
  ⟨⟨by decide, by decide, by decide, by decide⟩,
    ((serve_no_range_full ⟨[5], "3"⟩).2.1 "oops" (by decide) (by decide)).trans (by decide),
    (serve_no_range_full ⟨[5], "3"⟩).2.2 "bytes=x-1" (by decide) (by decide)⟩

/-- C7 counterexample: creating a record with no `task_id` does not
raise `InvalidRecord` — `add_task` logs an error and returns, the
store left unchanged. -/
theorem add_task_no_raise_cex :
    add_task "t0" [("prompt", .s "x")] [] = ([], CreateStatus.errorLogged) ∧
    CreateStatus.errorLogged ≠ CreateStatus.raisedInvalidRecord :=
  ⟨by decide, by decide⟩

/-- C7 amended: for a record whose `task_id` is empty or missing,
`add_task` logs an error and returns without persisting anything (it
does not raise); for a record with a truthy `task_id` it writes the
stamped record unconditionally, without checking for pre-existence
(last-writer-wins). -/
theorem add_task_behavior (now : String) (td : Dict) (store : CrudStore) :
    (truthy (taskIdOf (stampedTask now td)) = false →
      add_task now td store = (store, .errorLogged)) ∧
    (truthy (taskIdOf (stampedTask now td)) = true →
      add_task now td store =
        (storeSet store (pyStr (taskIdOf (stampedTask now td)))
          (some (stampedTask now td)), .written)) := by
  constructor <;> intro h <;> simp [add_task, h]

/-- Witness for C7: both branches of `add_task_behavior` at concrete
records. -/
theorem add_task_behavior_witness :
    (truthy (taskIdOf (stampedTask "t0" [("prompt", .s "x")])) = false ∧
      add_task "t0" [("prompt", .s "x")] [] = ([], CreateStatus.errorLogged)) ∧
    (truthy (taskIdOf (stampedTask "t0" [("task_id", .s "A")])) = true ∧
      add_task "t0" [("task_id", .s "A")] [] =
        ([("A", some [("task_id", .s "A"), ("created_at", .s "t0"),
          ("task_type", .s "i2v")])], CreateStatus.written)) :=
  ⟨⟨by decide, (add_task_behavior "t0" [("prompt", .s "x")] []).1 (by decide)⟩,
    ⟨by decide,
      ((add_task_behavior "t0" [("task_id", .s "A")] []).2 (by decide)).trans (by decide)⟩⟩

/-- C8: updating a nonexistent record logs and no-ops (the store is
unchanged, no file is created); updating an existing record writes
back the shallow merge of the partial fields over the existing record
with `updated_at` stamped: keys not named in the update keep their
previous values, keys named in it take the update's value. -/
theorem update_task_behavior (now task_id : String) (upd : Dict) (store : CrudStore) :
    (storeGet store task_id = none →
      update_task now task_id upd store = (store, .warnedMissing)) ∧
    (∀ d : Dict, storeGet store task_id = some (some d) →
      update_task now task_id upd store =
        (storeSet store task_id (some (mergedTask now d upd)), .updated) ∧
      dGet (mergedTask now d upd) "updated_at" = some (.s now) ∧
      (∀ k : String, k ≠ "updated_at" → dGetLast upd k = none →
        dGet (mergedTask now d upd) k = dGet d k) ∧
      (∀ k : String, ∀ v : JVal, k ≠ "updated_at" → dGetLast upd k = some v →
        dGet (mergedTask now d upd) k = some v)) := by
  refine ⟨fun h => by simp [update_task, h], fun d hd => ⟨by simp [update_task, hd], ?_, ?_, ?_⟩⟩
  · simp [mergedTask, dGet_dSet]
  · intro k hk hnone
    have hk' : ¬ ("updated_at" = k) := fun e => hk e.symm
    simp [mergedTask, dGet_dSet, hk', dGet_dUpdate, hnone]
  · intro k v hk hsome
    have hk' : ¬ ("updated_at" = k) := fun e => hk e.symm
    simp [mergedTask, dGet_dSet, hk', dGet_dUpdate, hsome]

/-- Witness for C8: a missing record is a no-op; an existing record is
merged, keeps an unnamed field, restamps `updated_at`, and takes the
update's value for a named field. -/
theorem update_task_behavior_witness :
    (storeGet [] "A" = none ∧
      update_task "t1" "A" [("status", .s "DONE")] [] = ([], UpdateStatus.warnedMissing)) ∧
    (storeGet [("A", some [("task_id", .s "A"), ("status", .s "PENDING")])] "A" =
        some (some [("task_id", .s "A"), ("status", .s "PENDING")]) ∧
      update_task "t1" "A" [("status", .s "DONE")]
          [("A", some [("task_id", .s "A"), ("status", .s "PENDING")])] =
        ([("A", some [("task_id", .s "A"), ("status", .s "DONE"),
          ("updated_at", .s "t1")])], UpdateStatus.updated) ∧
      dGet [("task_id", .s "A"), ("status", .s "DONE"), ("updated_at", .s "t1")]
        "task_id" = some (.s "A")) :=
  ⟨⟨by decide, (update_task_behavior "t1" "A" [("status", .s "DONE")] []).1 (by decide)⟩,
    ⟨by decide,
      (((update_task_behavior "t1" "A" [("status", .s "DONE")]
          [("A", some [("task_id", .s "A"), ("status", .s "PENDING")])]).2
        [("task_id", .s "A"), ("status", .s "PENDING")] (by decide)).1).trans (by decide),
      by decide⟩⟩

/-! ## BatchPaginator (`CacheService.get_tasks_paginated`)

A record file is modelled with the fields the paginator reads, at
their documented types: `task_id` and `batch_id` as JSON scalars
(their truthiness drives the control flow), `batch_index` /
`batch_total` as optional integers (`dict.get` defaults 0 and 1), and
`created_at` as a string (read by the index rebuild).  A directory is
a list of file entries in `os.listdir` order — the claims quantify
over all orders — each carrying the file-name stem, the mtime
(an integer; only its ordering matters) and the parse result, `none`
modelling a file `json.load` rejects.  All entries stand for `.json`
files; the `endswith('.json')` filter is folded into the listing. -/

structure PRec where
  taskId : JVal
  batchId : JVal
  batchIndex : Option Int
  batchTotal : Option Int
  createdAt : String
deriving DecidableEq, Repr

structure PFile where
  name : String
  mtime : Int
  parsed : Option PRec
deriving DecidableEq, Repr

/-- Step 1 (source lines 263–279): load every parseable record that
has a truthy `task_id`, pairing it with the file's mtime (the
`_mtime` temporary field); corrupt files and records without a
`task_id` are skipped with a warning. -/
def collectTasks (dir : List PFile) : List (PRec × Int) :=
  dir.filterMap fun f =>
    match f.parsed with
    | none => none
    | some r => if truthy r.taskId then some (r, f.mtime) else none

/-- Appending one task to its batch's bucket: Python dict insertion —
a new `batch_id` key goes to the end, an existing bucket is extended. -/
def addToGroup {α : Type} (gs : List (JVal × List α)) (k : JVal) (x : α) :
    List (JVal × List α) :=
  match gs with
  | [] => [(k, [x])]
  | (k', xs) :: rest =>
    if k' = k then (k', xs ++ [x]) :: rest else (k', xs) :: addToGroup rest k x

/-- First bucket stored under a key (Python dict lookup; keys are
unique in the lists `splitByBatch` builds). -/
def glookup {α : Type} : List (JVal × List α) → JVal → List α
  | [], _ => []
  | (k', xs) :: rest, k => if k' = k then xs else glookup rest k

/-- One iteration of the grouping loop: a truthy `batch_id` joins its
bucket, anything else is appended to the standalone list. -/
def splitStep {α : Type} (bid : α → JVal) (acc : List (JVal × List α) × List α)
    (x : α) : List (JVal × List α) × List α :=
  if truthy (bid x) then (addToGroup acc.1 (bid x) x, acc.2)
  else (acc.1, acc.2 ++ [x])

/-- Step 2 (source lines 285–295): partition into batch buckets (keyed
by the truthy `batch_id`, in first-occurrence order) and standalone
tasks (falsy `batch_id`, in scan order). -/
def splitByBatch {α : Type} (bid : α → JVal) (ts : List α) :
    List (JVal × List α) × List α :=
  ts.foldl (splitStep bid) ([], [])

/-- Stable insertion sort; `le x y` states that `x` may stay in front
of `y`.  A stable sort against a total preorder has a unique result,
so this agrees with Python's Timsort under the same key. -/
def insertStable {α : Type} (le : α → α → Bool) (x : α) : List α → List α
  | [] => [x]
  | y :: ys => if le x y then x :: y :: ys else y :: insertStable le x ys

def stableSort {α : Type} (le : α → α → Bool) : List α → List α
  | [] => []
  | x :: xs => insertStable le x (stableSort le xs)

/-- `tasks.sort(key=lambda x: x.get('batch_index', 0))` — ascending,
stable. -/
def leIdx (x y : PRec × Int) : Bool :=
  decide (x.1.batchIndex.getD 0 ≤ y.1.batchIndex.getD 0)

/-- Step 3's repair loop (source lines 302–311): `batch_total` is set
to the actual member count when the declared value (default 1)
disagrees, and `batch_index` is reassigned to `i + 1`.  `n` is the
actual count, `i` the running enumeration index. -/
def reindexFrom (n : Nat) : Nat → List (PRec × Int) → List (PRec × Int)
  | _, [] => []
  | i, (r, m) :: rest =>
    ({ r with
        batchTotal := if r.batchTotal.getD 1 = (n : Int) then r.batchTotal else some (n : Int),
        batchIndex := some ((i : Int) + 1) }, m) :: reindexFrom n (i + 1) rest

/-- Step 3 (source lines 297–311): sort a batch's members by
`batch_index` ascending, then repair the counters. -/
def repairGroup (ts : List (PRec × Int)) : List (PRec × Int) :=
  let sorted := stableSort leIdx ts
  reindexFrom sorted.length 0 sorted

/-- `max(t.get('_mtime', 0) for t in tasks)` — groups are nonempty by
construction, so the empty case (where Python `max` would raise) is
unreachable. -/
def maxMtime : List (PRec × Int) → Int
  | [] => 0
  | x :: xs => xs.foldl (fun a y => max a y.2) x.2

/-- One element of `batch_list` (source lines 313–321): the tuple
`(key, tasks, max mtime)`. -/
structure GEntry where
  key : JVal
  tasks : List (PRec × Int)
  mt : Int
deriving DecidableEq, Repr

/-- The `batch_list` element built from one repaired batch bucket
(source lines 314–317): `(batch_id, tasks, max mtime)`. -/
def mkEntry (g : JVal × List (PRec × Int)) : GEntry :=
  { key := g.1, tasks := repairGroup g.2, mt := maxMtime (repairGroup g.2) }

/-- Batch buckets become entries keyed by `batch_id`, with repaired
members and the members' maximum mtime (source lines 314–317). -/
def batchEntries (gs : List (JVal × List (PRec × Int))) : List GEntry :=
  gs.map mkEntry

/-- Standalone tasks become singleton entries keyed by their
`task_id` (source lines 319–321). -/
def singleEntries (st : List (PRec × Int)) : List GEntry :=
  st.map fun x => { key := x.1.taskId, tasks := [x], mt := x.2 }

/-- `batch_list.sort(key=lambda x: x[2], reverse=True)` — descending
by max mtime, stable. -/
def leMt (x y : GEntry) : Bool :=
  decide (y.mt ≤ x.mt)

/-- Steps 2–4 combined: the ordered group list a page is cut from. -/
def orderedOf (ts : List (PRec × Int)) : List GEntry :=
  let split := splitByBatch (fun x => x.1.batchId) ts
  stableSort leMt (batchEntries split.1 ++ singleEntries split.2)

/-- `CacheService.get_tasks_paginated` (source lines 245–348):
load, group, repair, order, then return the batches
`batch_list[(page-1)*limit : page*limit]` flattened (the `_mtime`
field popped), the total group count, and `end < total_batches`.
Pages are numbered from 1. -/
def get_tasks_paginated (dir : List PFile) (page limit : Nat) :
    List PRec × Nat × Bool :=
  let ts := collectTasks dir
  if ts = [] then ([], 0, false)
  else
    let entries := orderedOf ts
    let total := entries.length
    let start := (page - 1) * limit
    let pageEntries := (entries.drop start).take limit
    (((pageEntries.map GEntry.tasks).flatten).map Prod.fst, total,
      decide (start + limit < total))

/-! ## TaskLocationIndex (`CacheService.rebuild_task_index`,
`CacheService.locate_task`) -/

/-- One element of the rebuild scan's `file_list` (source lines
1827–1848): the task id is the file-name stem, `created_at` and
`batch_id` are read from the content. -/
structure IdxTask where
  tid : String
  mtime : Int
  createdAt : String
  batchId : JVal
deriving DecidableEq, Repr

/-- The rebuild scan: every `.json` file except `_index.json`, corrupt
files skipped. -/
def rebuildFileList (dir : List PFile) : List IdxTask :=
  dir.filterMap fun f =>
    if f.name = "_index" then none
    else
      match f.parsed with
      | none => none
      | some r =>
        some { tid := f.name, mtime := f.mtime, createdAt := r.createdAt,
               batchId := r.batchId }

/-- `max(t['mtime'] for t in group)` over an index group. -/
def maxMtimeIdx : List IdxTask → Int
  | [] => 0
  | x :: xs => xs.foldl (fun a y => max a y.mtime) x.mtime

/-- One persisted `task_index` value (source lines 1890–1895);
`index_in_page` is the running pre-group task count, as in the
source's inner loop. -/
structure LocEntry where
  page : Nat
  indexInPage : Nat
  createdAt : String
  batchId : JVal
deriving DecidableEq, Repr

/-- The page-assignment walk of source lines 1881–1907: every task of
a group gets the current page and the pre-group running count, then
the count advances by the group size and the page closes once the
count reaches `limit`. -/
def assignPages (limit : Nat) : Nat → Nat → List (List IdxTask) →
    List (String × LocEntry)
  | _, _, [] => []
  | curPage, cnt, g :: rest =>
    g.map (fun t => (t.tid,
      { page := curPage, indexInPage := cnt, createdAt := t.createdAt,
        batchId := t.batchId }))
    ++ (if limit ≤ cnt + g.length then assignPages limit (curPage + 1) 0 rest
        else assignPages limit curPage (cnt + g.length) rest)

/-- The rebuilt index: total task count and the `task_index` mapping
(the `batch_index` blob, which no claim touches, is not modelled). -/
structure IndexData where
  totalCount : Nat
  taskIndex : List (String × LocEntry)
deriving DecidableEq, Repr

/-- Last binding of a key — what a Python dict built by repeated
assignment holds. -/
def lastLookup {β : Type} : List (String × β) → String → Option β
  | [], _ => none
  | (k', v) :: rest, k =>
    match lastLookup rest k with
    | some w => some w
    | none => if k' = k then some v else none

/-- `CacheService.rebuild_task_index` (source lines 1793–1929): scan,
sort by mtime descending, group by `batch_id`, order groups by max
mtime descending, and assign page numbers by the running task-count
cut rule. -/
def rebuild_task_index (dir : List PFile) (limit : Nat) : IndexData :=
  let fl := stableSort (fun x y => decide (y.mtime ≤ x.mtime)) (rebuildFileList dir)
  let split := splitByBatch IdxTask.batchId fl
  let allGroups := split.1.map Prod.snd ++ split.2.map (fun t => [t])
  let ordered := stableSort (fun x y => decide (maxMtimeIdx y ≤ maxMtimeIdx x)) allGroups
  { totalCount := fl.length, taskIndex := assignPages limit 1 0 ordered }

/-- `CacheService.locate_task` (source lines 1931–1948) in the state
the claim describes: the lookup performed right after
`rebuild_task_index` (also the lazy-rebuild path on an empty index). -/
def locate_after_rebuild (dir : List PFile) (limit : Nat) (tid : String) :
    Option LocEntry :=
  lastLookup (rebuild_task_index dir limit).taskIndex tid

/-! ## StorageService.read_json (source lines 134–153) -/

/-- `read_json` over the outcome of `read_file` (`none` = absent after
retries) and an abstract `json.loads` that may reject the content:
both failure modes collapse to `None`, never an exception. -/
def read_json (fileContent : Option String) (loads : String → Option JVal) :
    Option JVal :=
  match fileContent with
  | none => none
  | some c =>
    match loads c with
    | none => none
    | some v => some v

/-! ## The spec's pagination cut rule, for comparison

Modelled from the spec (§4.3 step 5): walk the ordered groups
accumulating a running task count and close the page once the count
reaches or exceeds the page size.  This is the rule the claims C1 and
C3 attribute to `get_tasks_paginated`; it is defined here only to be
compared against the code's slice-by-group-count rule. -/

def specChunks (limit : Nat) (cur : List GEntry) (cnt : Nat) :
    List GEntry → List (List GEntry)
  | [] => if cur = [] then [] else [cur]
  | g :: rest =>
    if limit ≤ cnt + g.tasks.length then
      (cur ++ [g]) :: specChunks limit [] 0 rest
    else specChunks limit (cur ++ [g]) (cnt + g.tasks.length) rest

/-- Modelled from the spec: the tasks of page `page` under the
running-task-count cut rule, over the same ordered group list the
code builds. -/
def specPageTasks (dir : List PFile) (page limit : Nat) : List PRec :=
  let pages := specChunks limit [] 0 (orderedOf (collectTasks dir))
  ((((pages.drop (page - 1)).headD []).map GEntry.tasks).flatten).map Prod.fst

/-! ## Structural lemmas about the grouping and ordering pipeline -/

theorem insertStable_perm {α : Type} (le : α → α → Bool) (x : α) (l : List α) :
    (insertStable le x l).Perm (x :: l) := by
  induction l with
  | nil => exact List.Perm.refl _
  | cons y ys ih =>
    by_cases h : le x y = true
    · simp [insertStable, h]
    · simp only [insertStable, h, if_false, Bool.false_eq_true]
      exact (ih.cons y).trans (List.Perm.swap x y ys)

theorem stableSort_perm {α : Type} (le : α → α → Bool) (l : List α) :
    (stableSort le l).Perm l := by
  induction l with
  | nil => exact List.Perm.refl _
  | cons x xs ih => exact (insertStable_perm le x _).trans (ih.cons x)

/-- Well-formedness of the batch buckets built by `splitByBatch`:
unique keys, every key truthy, every bucket nonempty and holding only
its own batch's tasks. -/
def GroupsWF {α : Type} (bid : α → JVal) (gs : List (JVal × List α)) : Prop :=
  (gs.map Prod.fst).Nodup ∧
  ∀ g ∈ gs, truthy g.1 = true ∧ g.2 ≠ [] ∧ ∀ y ∈ g.2, bid y = g.1

theorem addToGroup_keys {α : Type} (gs : List (JVal × List α)) (k : JVal) (x : α) :
    (addToGroup gs k x).map Prod.fst =
      if k ∈ gs.map Prod.fst then gs.map Prod.fst else gs.map Prod.fst ++ [k] := by
  induction gs with
  | nil => simp [addToGroup]
  | cons g rest ih =>
    obtain ⟨k', xs⟩ := g
    by_cases h : k' = k
    · subst h; simp [addToGroup]
    · have hne : ¬ k = k' := fun e => h e.symm
      by_cases hm : k ∈ rest.map Prod.fst
      · simp [addToGroup, h, ih, hm, hne]
      · simp [addToGroup, h, ih, hm, hne]

theorem addToGroup_glookup_self {α : Type} (gs : List (JVal × List α)) (k : JVal) (x : α) :
    glookup (addToGroup gs k x) k = glookup gs k ++ [x] := by
  induction gs with
  | nil => simp [addToGroup, glookup]
  | cons g rest ih =>
    obtain ⟨k', xs⟩ := g
    by_cases h : k' = k
    · subst h; simp [addToGroup, glookup]
    · simp [addToGroup, glookup, h, ih]

theorem addToGroup_glookup_ne {α : Type} (gs : List (JVal × List α)) (k k' : JVal) (x : α)
    (h : k' ≠ k) : glookup (addToGroup gs k x) k' = glookup gs k' := by
  have hks : ¬ k = k' := fun e => h e.symm
  induction gs with
  | nil => simp [addToGroup, glookup, hks]
  | cons g rest ih =>
    obtain ⟨k0, xs⟩ := g
    by_cases h0 : k0 = k
    · subst h0
      simp [addToGroup, glookup, hks]
    · by_cases h1 : k0 = k'
      · subst h1; simp [addToGroup, glookup, h0]
      · simp [addToGroup, glookup, h0, h1, ih]

theorem addToGroup_props {α : Type} (bid : α → JVal) (gs : List (JVal × List α)) (k : JVal)
    (x : α) (hk : truthy k = true) (hx : bid x = k)
    (h : ∀ g ∈ gs, truthy g.1 = true ∧ g.2 ≠ [] ∧ ∀ y ∈ g.2, bid y = g.1) :
    ∀ g ∈ addToGroup gs k x, truthy g.1 = true ∧ g.2 ≠ [] ∧ ∀ y ∈ g.2, bid y = g.1 := by
  induction gs with
  | nil =>
    intro g hg
    simp only [addToGroup, List.mem_singleton] at hg
    subst hg
    refine ⟨hk, by simp, ?_⟩
    intro y hy
    simp only [List.mem_singleton] at hy
    subst hy; exact hx
  | cons g0 rest ih =>
    obtain ⟨k0, xs⟩ := g0
    intro g hg
    by_cases h0 : k0 = k
    · subst h0
      have he : addToGroup ((k0, xs) :: rest) k0 x = (k0, xs ++ [x]) :: rest := by
        simp [addToGroup]
      rw [he] at hg
      rcases List.mem_cons.mp hg with hg1 | hg1
      · subst hg1
        have hh := h (k0, xs) (by simp)
        refine ⟨hh.1, by simp, ?_⟩
        intro y hy
        rcases List.mem_append.mp hy with hm | hm
        · exact hh.2.2 y hm
        · simp only [List.mem_singleton] at hm
          subst hm; exact hx
      · exact h g (List.mem_cons_of_mem _ hg1)
    · have he : addToGroup ((k0, xs) :: rest) k x = (k0, xs) :: addToGroup rest k x := by
        simp [addToGroup, h0]
      rw [he] at hg
      rcases List.mem_cons.mp hg with hg1 | hg1
      · subst hg1; exact h (k0, xs) (by simp)
      · exact ih (fun g' hg' => h g' (List.mem_cons_of_mem _ hg')) g hg1

theorem addToGroup_wf {α : Type} (bid : α → JVal) (gs : List (JVal × List α)) (k : JVal)
    (x : α) (hk : truthy k = true) (hx : bid x = k) (h : GroupsWF bid gs) :
    GroupsWF bid (addToGroup gs k x) := by
  obtain ⟨hnd, hmem⟩ := h
  constructor
  · rw [addToGroup_keys]
    by_cases hm : k ∈ gs.map Prod.fst
    · simpa [hm] using hnd
    · simp only [hm, if_false]
      rw [List.nodup_append]
      refine ⟨hnd, List.nodup_singleton k, ?_⟩
      intro a ha hb
      simp only [List.mem_singleton] at hb
      subst hb
      exact hm ha
  · exact addToGroup_props bid gs k x hk hx hmem

theorem addToGroup_members {α : Type} {Q : α → Prop} (gs : List (JVal × List α))
    (k : JVal) (x : α) (h : ∀ g ∈ gs, ∀ y ∈ g.2, Q y) (hx : Q x) :
    ∀ g ∈ addToGroup gs k x, ∀ y ∈ g.2, Q y := by
  induction gs with
  | nil =>
    intro g hg y hy
    simp only [addToGroup, List.mem_singleton] at hg
    subst hg
    simp only [List.mem_singleton] at hy
    subst hy; exact hx
  | cons g0 rest ih =>
    obtain ⟨k0, xs⟩ := g0
    intro g hg y hy
    by_cases h0 : k0 = k
    · subst h0
      have he : addToGroup ((k0, xs) :: rest) k0 x = (k0, xs ++ [x]) :: rest := by
        simp [addToGroup]
      rw [he] at hg
      rcases List.mem_cons.mp hg with hg1 | hg1
      · subst hg1
        rcases List.mem_append.mp hy with hm | hm
        · exact h (k0, xs) (by simp) y hm
        · simp only [List.mem_singleton] at hm
          subst hm; exact hx
      · exact h g (List.mem_cons_of_mem _ hg1) y hy
    · have he : addToGroup ((k0, xs) :: rest) k x = (k0, xs) :: addToGroup rest k x := by
        simp [addToGroup, h0]
      rw [he] at hg
      rcases List.mem_cons.mp hg with hg1 | hg1
      · subst hg1; exact h (k0, xs) (by simp) y hy
      · exact ih (fun g' hg' => h g' (List.mem_cons_of_mem _ hg')) g hg1 y hy

theorem glookup_eq_of_mem {α : Type} {gs : List (JVal × List α)} {k : JVal} {xs : List α}
    (hnd : (gs.map Prod.fst).Nodup) (hmem : (k, xs) ∈ gs) : glookup gs k = xs := by
  induction gs with
  | nil => cases hmem
  | cons g rest ih =>
    obtain ⟨k0, xs0⟩ := g
    rcases List.mem_cons.mp hmem with he | he
    · injection he with e1 e2
      subst e1; subst e2
      simp [glookup]
    · have hk : k ∈ rest.map Prod.fst := by
        exact List.mem_map.mpr ⟨(k, xs), he, rfl⟩
      have h0 : k0 ≠ k := by
        intro e; subst e
        exact (List.nodup_cons.mp (by simpa using hnd)).1 hk
      simp only [glookup, if_neg h0]
      exact ih (List.nodup_cons.mp (by simpa using hnd)).2 he

/-! ## Invariants of the grouping fold -/

theorem splitFold_snd {α : Type} (bid : α → JVal) (ts : List α)
    (acc : List (JVal × List α) × List α) :
    (ts.foldl (splitStep bid) acc).2 = acc.2 ++ ts.filter (fun x => !truthy (bid x)) := by
  induction ts generalizing acc with
  | nil => simp
  | cons x rest ih =>
    rw [List.foldl_cons, ih]
    by_cases h : truthy (bid x) = true
    · simp [splitStep, h, List.filter_cons]
    · have h' : truthy (bid x) = false := by
        cases hb : truthy (bid x) with
        | true => exact absurd hb h
        | false => rfl
      simp [splitStep, h', List.filter_cons]

theorem splitFold_glookup {α : Type} (bid : α → JVal) (b : JVal) (hb : truthy b = true)
    (ts : List α) (acc : List (JVal × List α) × List α) :
    glookup (ts.foldl (splitStep bid) acc).1 b =
      glookup acc.1 b ++ ts.filter (fun x => decide (bid x = b)) := by
  induction ts generalizing acc with
  | nil => simp
  | cons x rest ih =>
    rw [List.foldl_cons, ih]
    by_cases h : truthy (bid x) = true
    · have hstep : splitStep bid acc x = (addToGroup acc.1 (bid x) x, acc.2) := by
        simp [splitStep, h]
      rw [hstep]
      by_cases hbx : bid x = b
      · rw [hbx, addToGroup_glookup_self]
        simp [List.filter_cons, hbx]
      · rw [addToGroup_glookup_ne _ _ _ _ (fun e => hbx e.symm)]
        simp [List.filter_cons, hbx]
    · have hbx : ¬ (bid x = b) := fun e => h (e ▸ hb)
      have h' : truthy (bid x) = false := by
        cases hb2 : truthy (bid x) with
        | true => exact absurd hb2 h
        | false => rfl
      simp [splitStep, h', List.filter_cons, hbx]

theorem splitFold_wf {α : Type} (bid : α → JVal) (ts : List α)
    (acc : List (JVal × List α) × List α) (h : GroupsWF bid acc.1) :
    GroupsWF bid (ts.foldl (splitStep bid) acc).1 := by
  induction ts generalizing acc with
  | nil => exact h
  | cons x rest ih =>
    rw [List.foldl_cons]
    by_cases hx : truthy (bid x) = true
    · exact ih _ (by simpa [splitStep, hx] using addToGroup_wf bid acc.1 (bid x) x hx rfl h)
    · have h' : truthy (bid x) = false := by
        cases hb : truthy (bid x) with
        | true => exact absurd hb hx
        | false => rfl
      exact ih _ (by simpa [splitStep, h'] using h)

theorem splitFold_membersQ {α : Type} {Q : α → Prop} (bid : α → JVal) (ts : List α)
    (acc : List (JVal × List α) × List α)
    (hacc : ∀ g ∈ acc.1, ∀ y ∈ g.2, Q y) (hts : ∀ x ∈ ts, Q x) :
    ∀ g ∈ (ts.foldl (splitStep bid) acc).1, ∀ y ∈ g.2, Q y := by
  induction ts generalizing acc with
  | nil => exact hacc
  | cons x rest ih =>
    rw [List.foldl_cons]
    by_cases hx : truthy (bid x) = true
    · refine ih _ ?_ (fun z hz => hts z (List.mem_cons_of_mem _ hz))
      have := addToGroup_members acc.1 (bid x) x hacc (hts x (by simp))
      simpa [splitStep, hx] using this
    · have h' : truthy (bid x) = false := by
        cases hb : truthy (bid x) with
        | true => exact absurd hb hx
        | false => rfl
      refine ih _ ?_ (fun z hz => hts z (List.mem_cons_of_mem _ hz))
      simpa [splitStep, h'] using hacc

theorem splitByBatch_snd {α : Type} (bid : α → JVal) (ts : List α) :
    (splitByBatch bid ts).2 = ts.filter (fun x => !truthy (bid x)) := by
  simpa [splitByBatch] using splitFold_snd bid ts ([], [])

theorem splitByBatch_glookup {α : Type} (bid : α → JVal) (b : JVal) (hb : truthy b = true)
    (ts : List α) :
    glookup (splitByBatch bid ts).1 b = ts.filter (fun x => decide (bid x = b)) := by
  simpa [splitByBatch, glookup] using splitFold_glookup bid b hb ts ([], [])

theorem splitByBatch_wf {α : Type} (bid : α → JVal) (ts : List α) :
    GroupsWF bid (splitByBatch bid ts).1 :=
  splitFold_wf bid ts ([], []) ⟨by simp, by simp⟩

theorem splitByBatch_membersQ {α : Type} {Q : α → Prop} (bid : α → JVal) (ts : List α)
    (hts : ∀ x ∈ ts, Q x) : ∀ g ∈ (splitByBatch bid ts).1, ∀ y ∈ g.2, Q y :=
  splitFold_membersQ bid ts ([], []) (by simp) hts

/-! ## Properties of the repair pass -/

theorem reindexFrom_length (n i : Nat) (l : List (PRec × Int)) :
    (reindexFrom n i l).length = l.length := by
  induction l generalizing i with
  | nil => rfl
  | cons p rest ih =>
    obtain ⟨r, m⟩ := p
    simp [reindexFrom, ih]

theorem reindexFrom_map_batchId (n i : Nat) (l : List (PRec × Int)) :
    (reindexFrom n i l).map (fun p => p.1.batchId) = l.map (fun p => p.1.batchId) := by
  induction l generalizing i with
  | nil => rfl
  | cons p rest ih =>
    obtain ⟨r, m⟩ := p
    simp [reindexFrom, ih]

theorem reindexFrom_map_taskId (n i : Nat) (l : List (PRec × Int)) :
    (reindexFrom n i l).map (fun p => p.1.taskId) = l.map (fun p => p.1.taskId) := by
  induction l generalizing i with
  | nil => rfl
  | cons p rest ih =>
    obtain ⟨r, m⟩ := p
    simp [reindexFrom, ih]

theorem reindexFrom_map_batchTotal (n i : Nat) (l : List (PRec × Int))
    (h : ∀ p ∈ l, p.1.batchTotal.getD 1 ≠ (n : Int)) :
    (reindexFrom n i l).map (fun p => p.1.batchTotal) =
      List.replicate l.length (some (n : Int)) := by
  induction l generalizing i with
  | nil => rfl
  | cons p rest ih =>
    obtain ⟨r, m⟩ := p
    have hr : ¬ (r.batchTotal.getD 1 = (n : Int)) := h (r, m) (by simp)
    simp [reindexFrom, hr, List.replicate_succ,
      ih (i + 1) (fun q hq => h q (List.mem_cons_of_mem _ hq))]

theorem reindexFrom_map_batchIndex (n i : Nat) (l : List (PRec × Int)) :
    (reindexFrom n i l).map (fun p => p.1.batchIndex) =
      (List.range' (i + 1) l.length).map (fun j => some ((j : Nat) : Int)) := by
  induction l generalizing i with
  | nil => rfl
  | cons p rest ih =>
    obtain ⟨r, m⟩ := p
    simp only [reindexFrom, List.map_cons, List.length_cons, List.range'_succ, ih (i + 1)]
    push_cast
    simp

theorem repairGroup_length (l : List (PRec × Int)) :
    (repairGroup l).length = l.length := by
  rw [repairGroup, reindexFrom_length]
  exact (stableSort_perm leIdx l).length_eq

theorem repairGroup_batchId_perm (l : List (PRec × Int)) :
    ((repairGroup l).map (fun p => p.1.batchId)).Perm (l.map (fun p => p.1.batchId)) := by
  rw [repairGroup, reindexFrom_map_batchId]
  exact (stableSort_perm leIdx l).map _

theorem repairGroup_taskId_perm (l : List (PRec × Int)) :
    ((repairGroup l).map (fun p => p.1.taskId)).Perm (l.map (fun p => p.1.taskId)) := by
  rw [repairGroup, reindexFrom_map_taskId]
  exact (stableSort_perm leIdx l).map _

theorem forall_mem_of_map_perm {α β : Type} {f : α → β} {l₁ l₂ : List α}
    (h : (l₁.map f).Perm (l₂.map f)) (P : β → Prop) (hp : ∀ q ∈ l₂, P (f q)) :
    ∀ p ∈ l₁, P (f p) := by
  intro p hm
  have h2 : f p ∈ l₂.map f := h.mem_iff.mp (List.mem_map_of_mem f hm)
  obtain ⟨q, hq, he⟩ := List.mem_map.mp h2
  exact he ▸ hp q hq

/-! ## Properties of the ordered group list -/

/-- The entry holds some task of batch `b`. -/
def hasB (b : JVal) (e : GEntry) : Bool :=
  e.tasks.any fun p => decide (p.1.batchId = b)

theorem batchEntries_map_key (gs : List (JVal × List (PRec × Int))) :
    (batchEntries gs).map GEntry.key = gs.map Prod.fst := by
  simp [batchEntries, mkEntry]

theorem batchEntries_tasks (gs : List (JVal × List (PRec × Int)))
    (hwf : ∀ g ∈ gs, ∀ y ∈ g.2, y.1.batchId = g.1) :
    ∀ e ∈ batchEntries gs, ∀ p ∈ e.tasks, p.1.batchId = e.key := by
  intro e he
  obtain ⟨g, hg, rfl⟩ := List.mem_map.mp he
  exact forall_mem_of_map_perm (repairGroup_batchId_perm g.2) (fun v => v = g.1) (hwf g hg)

theorem hasB_key (b : JVal) (gs : List (JVal × List (PRec × Int)))
    (hwf : ∀ g ∈ gs, ∀ y ∈ g.2, y.1.batchId = g.1) :
    ∀ e ∈ batchEntries gs, hasB b e = true → e.key = b := by
  intro e he hb
  obtain ⟨p, hp, hpb⟩ := List.any_eq_true.mp hb
  have := batchEntries_tasks gs hwf e he p hp
  rw [← this]
  exact of_decide_eq_true hpb

theorem countP_batch_le_one (b : JVal) (gs : List (JVal × List (PRec × Int)))
    (hnd : (gs.map Prod.fst).Nodup)
    (hwf : ∀ g ∈ gs, ∀ y ∈ g.2, y.1.batchId = g.1) :
    (batchEntries gs).countP (hasB b) ≤ 1 := by
  induction gs with
  | nil => simp [batchEntries]
  | cons g rest ih =>
    have hcons : batchEntries (g :: rest) = mkEntry g :: batchEntries rest := rfl
    rw [hcons, List.countP_cons]
    have hnd' : (rest.map Prod.fst).Nodup := (List.nodup_cons.mp hnd).2
    have hwf' : ∀ g' ∈ rest, ∀ y ∈ g'.2, y.1.batchId = g'.1 :=
      fun g' hg' => hwf g' (List.mem_cons_of_mem _ hg')
    by_cases hh : hasB b (mkEntry g) = true
    · have hkey : g.1 = b :=
        hasB_key b (g :: rest) hwf (mkEntry g) (by rw [hcons]; simp) hh
      have hzero : (batchEntries rest).countP (hasB b) = 0 := by
        rw [List.countP_eq_zero]
        intro e he hbe
        have hk := hasB_key b rest hwf' e he hbe
        have hmem : e.key ∈ rest.map Prod.fst := by
          rw [← batchEntries_map_key]
          exact List.mem_map_of_mem GEntry.key he
        rw [hk, ← hkey] at hmem
        exact (List.nodup_cons.mp hnd).1 hmem
      simp [hzero, hh]
    · simp only [hh, if_false, Bool.false_eq_true, Nat.add_zero]
      exact ih hnd' hwf'

theorem countP_single_zero (b : JVal) (hb : truthy b = true) (st : List (PRec × Int))
    (hst : ∀ x ∈ st, truthy x.1.batchId = false) :
    (singleEntries st).countP (hasB b) = 0 := by
  rw [List.countP_eq_zero]
  intro e he
  obtain ⟨x, hx, rfl⟩ := List.mem_map.mp he
  simp only [hasB, List.any_eq_true, not_exists]
  rintro p ⟨hp, hpb⟩
  simp only [List.mem_singleton] at hp
  subst hp
  have hbid := hst p hx
  rw [of_decide_eq_true hpb, hb] at hbid
  cases hbid

theorem mem_orderedOf (ts : List (PRec × Int)) (e : GEntry) :
    e ∈ orderedOf ts ↔
      e ∈ batchEntries (splitByBatch (fun x => x.1.batchId) ts).1 ++
        singleEntries (splitByBatch (fun x => x.1.batchId) ts).2 := by
  simp only [orderedOf]
  exact (stableSort_perm leMt _).mem_iff

theorem countP_orderedOf (ts : List (PRec × Int)) (p : GEntry → Bool) :
    (orderedOf ts).countP p =
      (batchEntries (splitByBatch (fun x => x.1.batchId) ts).1).countP p +
        (singleEntries (splitByBatch (fun x => x.1.batchId) ts).2).countP p := by
  simp only [orderedOf]
  rw [(stableSort_perm leMt _).countP_eq, List.countP_append]

theorem standalone_not_truthy (ts : List (PRec × Int)) :
    ∀ x ∈ (splitByBatch (fun x => x.1.batchId) ts).2, truthy x.1.batchId = false := by
  intro x hx
  rw [splitByBatch_snd] at hx
  have := (List.mem_filter.mp hx).2
  simpa using this

/-- At most one group of the ordered list holds tasks of a given
batch. -/
theorem orderedOf_countP_le_one (ts : List (PRec × Int)) (b : JVal)
    (hb : truthy b = true) : (orderedOf ts).countP (hasB b) ≤ 1 := by
  obtain ⟨hnd, hwfm⟩ := splitByBatch_wf (fun x => x.1.batchId) ts
  have hwf2 : ∀ g ∈ (splitByBatch (fun x => x.1.batchId) ts).1, ∀ y ∈ g.2,
      y.1.batchId = g.1 := fun g hg => (hwfm g hg).2.2
  rw [countP_orderedOf]
  have h1 := countP_batch_le_one b _ hnd hwf2
  have h2 := countP_single_zero b hb _ (standalone_not_truthy ts)
  omega

/-- A group holding tasks of batch `b` is the batch bucket of `b`: all
its tasks belong to `b` and it is exactly the repaired list of every
scanned task of `b`. -/
theorem orderedOf_entry_char (ts : List (PRec × Int)) (b : JVal) (hb : truthy b = true) :
    ∀ e ∈ orderedOf ts, hasB b e = true →
      (∀ p ∈ e.tasks, p.1.batchId = b) ∧
      e.tasks = repairGroup (ts.filter fun p => decide (p.1.batchId = b)) := by
  intro e he hhas
  obtain ⟨hnd, hwfm⟩ := splitByBatch_wf (fun x => x.1.batchId) ts
  have hwf2 : ∀ g ∈ (splitByBatch (fun x => x.1.batchId) ts).1, ∀ y ∈ g.2,
      y.1.batchId = g.1 := fun g hg => (hwfm g hg).2.2
  rcases List.mem_append.mp ((mem_orderedOf ts e).mp he) with hbm | hsm
  · have hkey : e.key = b := hasB_key b _ hwf2 e hbm hhas
    obtain ⟨g, hg, rfl⟩ := List.mem_map.mp hbm
    have hg1 : g.1 = b := hkey
    have htasks : ∀ p ∈ (mkEntry g).tasks, p.1.batchId = b := by
      intro p hp
      rw [batchEntries_tasks _ hwf2 (mkEntry g) hbm p hp]
      exact hkey
    refine ⟨htasks, ?_⟩
    have hlk : glookup (splitByBatch (fun x => x.1.batchId) ts).1 g.1 = g.2 := by
      refine glookup_eq_of_mem hnd ?_
      have : (g.1, g.2) = g := rfl
      rw [this]
      exact hg
    have hfil := splitByBatch_glookup (fun x => x.1.batchId) b hb ts
    rw [hg1] at hlk
    rw [hlk] at hfil
    show repairGroup g.2 = _
    rw [hfil]
  · obtain ⟨x, hx, rfl⟩ := List.mem_map.mp hsm
    obtain ⟨p, hp, hpb⟩ := List.any_eq_true.mp hhas
    simp only [List.mem_singleton] at hp
    subst hp
    have hbid := standalone_not_truthy ts p hx
    rw [of_decide_eq_true hpb, hb] at hbid
    cases hbid

/-- Every group of the ordered list is nonempty. -/
theorem orderedOf_tasks_ne_nil (ts : List (PRec × Int)) :
    ∀ e ∈ orderedOf ts, e.tasks ≠ [] := by
  intro e he
  obtain ⟨hnd, hwfm⟩ := splitByBatch_wf (fun x => x.1.batchId) ts
  rcases List.mem_append.mp ((mem_orderedOf ts e).mp he) with hbm | hsm
  · obtain ⟨g, hg, rfl⟩ := List.mem_map.mp hbm
    have hne : g.2 ≠ [] := (hwfm g hg).2.1
    show repairGroup g.2 ≠ []
    intro hc
    have := repairGroup_length g.2
    rw [hc] at this
    exact hne (List.length_eq_zero.mp this.symm)
  · obtain ⟨x, hx, rfl⟩ := List.mem_map.mp hsm
    simp

/-- Every task carried by the ordered list satisfies any property all
scanned tasks satisfy on `task_id` (used for the truthiness of
returned ids). -/
theorem orderedOf_taskId (ts : List (PRec × Int))
    (hts : ∀ x ∈ ts, truthy x.1.taskId = true) :
    ∀ e ∈ orderedOf ts, ∀ p ∈ e.tasks, truthy p.1.taskId = true := by
  intro e he
  have hgm : ∀ g ∈ (splitByBatch (fun x => x.1.batchId) ts).1, ∀ y ∈ g.2,
      truthy y.1.taskId = true :=
    splitByBatch_membersQ (fun x => x.1.batchId) ts hts
  rcases List.mem_append.mp ((mem_orderedOf ts e).mp he) with hbm | hsm
  · obtain ⟨g, hg, rfl⟩ := List.mem_map.mp hbm
    exact forall_mem_of_map_perm (repairGroup_taskId_perm g.2)
      (fun v => truthy v = true) (hgm g hg)
  · obtain ⟨x, hx, rfl⟩ := List.mem_map.mp hsm
    intro p hp
    simp only [List.mem_singleton] at hp
    subst hp
    have hx2 : p ∈ ts := by
      rw [splitByBatch_snd] at hx
      exact (List.mem_filter.mp hx).1
    exact hts p hx2

theorem collectTasks_taskId (dir : List PFile) :
    ∀ x ∈ collectTasks dir, truthy x.1.taskId = true := by
  intro x hx
  obtain ⟨f, hf, he⟩ := List.mem_filterMap.mp hx
  cases hp : f.parsed with
  | none => rw [hp] at he; cases he
  | some r =>
    rw [hp] at he
    by_cases ht : truthy r.taskId = true
    · simp only [ht, if_true, if_pos ht] at he
      cases he
      exact ht
    · simp [ht] at he

theorem collectTasks_filter_parsed (dir : List PFile) :
    collectTasks dir = collectTasks (dir.filter fun f => f.parsed.isSome) := by
  induction dir with
  | nil => rfl
  | cons f rest ih =>
    cases hp : f.parsed with
    | none =>
      have h1 : collectTasks (f :: rest) = collectTasks rest := by
        simp [collectTasks, List.filterMap_cons, hp]
      have h2 : (f :: rest).filter (fun f => f.parsed.isSome) =
          rest.filter (fun f => f.parsed.isSome) := by
        simp [List.filter_cons, hp]
      rw [h1, h2, ih]
    | some r =>
      have h2 : (f :: rest).filter (fun f => f.parsed.isSome) =
          f :: rest.filter (fun f => f.parsed.isSome) := by
        simp [List.filter_cons, hp]
      have key : ∀ l : List PFile, collectTasks (f :: l) =
          (if truthy r.taskId = true then [(r, f.mtime)] else []) ++ collectTasks l := by
        intro l
        by_cases ht : truthy r.taskId = true <;>
          simp [collectTasks, List.filterMap_cons, hp, ht]
      rw [h2, key rest, key (rest.filter fun f => f.parsed.isSome), ih]

/-- Unfolding of the paginator on a nonempty scan. -/
theorem get_tasks_paginated_eq (dir : List PFile) (page limit : Nat)
    (h : collectTasks dir ≠ []) :
    get_tasks_paginated dir page limit =
      (((((orderedOf (collectTasks dir)).drop ((page - 1) * limit)).take limit).map
          GEntry.tasks).flatten.map Prod.fst,
        (orderedOf (collectTasks dir)).length,
        decide ((page - 1) * limit + limit < (orderedOf (collectTasks dir)).length)) := by
  simp only [get_tasks_paginated, if_neg h]

theorem get_tasks_paginated_nil (dir : List PFile) (page limit : Nat)
    (h : collectTasks dir = []) :
    get_tasks_paginated dir page limit = ([], 0, false) := by
  simp [get_tasks_paginated, h]

/-- A task on a returned page comes from one of the page's groups. -/
theorem mem_page_tasks {dir : List PFile} {page limit : Nat} {t : PRec}
    (ht : t ∈ (get_tasks_paginated dir page limit).1) :
    collectTasks dir ≠ [] ∧
      ∃ e ∈ ((orderedOf (collectTasks dir)).drop ((page - 1) * limit)).take limit,
        ∃ m : Int, (t, m) ∈ e.tasks := by
  by_cases h : collectTasks dir = []
  · rw [get_tasks_paginated_nil dir page limit h] at ht
    cases ht
  · refine ⟨h, ?_⟩
    rw [get_tasks_paginated_eq dir page limit h] at ht
    obtain ⟨q, hq, rfl⟩ := List.mem_map.mp ht
    obtain ⟨l, hl, hql⟩ := List.mem_flatten.mp hq
    obtain ⟨e, he, rfl⟩ := List.mem_map.mp hl
    exact ⟨e, he, q.2, hql⟩

theorem length_le_flatten (es : List GEntry) (h : ∀ e ∈ es, e.tasks ≠ []) :
    es.length ≤ ((es.map GEntry.tasks).flatten).length := by
  induction es with
  | nil => simp
  | cons e rest ih =>
    simp only [List.map_cons, List.flatten_cons, List.length_append, List.length_cons]
    have h1 : 1 ≤ e.tasks.length := by
      have hne := h e (by simp)
      cases he : e.tasks with
      | nil => exact absurd he hne
      | cons a l => simp [he]
    have h2 := ih (fun e' he' => h e' (List.mem_cons_of_mem _ he'))
    omega

/-! ## Claim theorems for the paginator -/

/-- C2: for every store, page size and page number (pages counted from
1), no batch id appears among the tasks of two consecutive returned
pages — a batch is never split across a page boundary. -/
theorem batch_atomicity (dir : List PFile) (page limit : Nat) (b : JVal)
    (hpg : 1 ≤ page) (hb : truthy b = true)
    (h1 : ∃ t ∈ (get_tasks_paginated dir page limit).1, t.batchId = b) :
    ¬ ∃ t ∈ (get_tasks_paginated dir (page + 1) limit).1, t.batchId = b := by
  rintro ⟨t2, ht2, hb2⟩
  obtain ⟨t1, ht1, hb1⟩ := h1
  obtain ⟨hne, e1, he1, m1, hm1⟩ := mem_page_tasks ht1
  obtain ⟨-, e2, he2, m2, hm2⟩ := mem_page_tasks ht2
  have hc1 : 0 < (((orderedOf (collectTasks dir)).drop ((page - 1) * limit)).take
      limit).countP (hasB b) := by
    refine List.countP_pos_iff.mpr ⟨e1, he1, ?_⟩
    exact List.any_eq_true.mpr ⟨(t1, m1), hm1, decide_eq_true hb1⟩
  have hc2 : 0 < (((orderedOf (collectTasks dir)).drop (page * limit)).take
      limit).countP (hasB b) := by
    have hred : page + 1 - 1 = page := by omega
    rw [hred] at he2
    refine List.countP_pos_iff.mpr ⟨e2, he2, ?_⟩
    exact List.any_eq_true.mpr ⟨(t2, m2), hm2, decide_eq_true hb2⟩
  have hsplit : (page - 1) * limit + limit = page * limit := by
    obtain ⟨q, rfl⟩ : ∃ q, page = q + 1 := ⟨page - 1, by omega⟩
    simp [Nat.succ_mul]
  have hsum : (((orderedOf (collectTasks dir)).drop ((page - 1) * limit)).take
      (limit + limit)).countP (hasB b) =
      (((orderedOf (collectTasks dir)).drop ((page - 1) * limit)).take
        limit).countP (hasB b) +
      (((orderedOf (collectTasks dir)).drop (page * limit)).take
        limit).countP (hasB b) := by
    rw [List.take_add, List.countP_append, List.drop_drop, hsplit]
  have hub : (((orderedOf (collectTasks dir)).drop ((page - 1) * limit)).take
      (limit + limit)).countP (hasB b) ≤
      (orderedOf (collectTasks dir)).countP (hasB b) :=
    le_trans (List.Sublist.countP_le _ (List.take_sublist _ _))
      (List.Sublist.countP_le _ (List.drop_sublist _ _))
  have hone := orderedOf_countP_le_one (collectTasks dir) b hb
  omega

/-- Witness for C2: batch `B1` fills page 1 with page size 1 and does
not reappear on page 2. -/
theorem batch_atomicity_witness :
    (1 ≤ 1 ∧ truthy (JVal.s "B1") = true ∧
      ∃ t ∈ (get_tasks_paginated
        [⟨"A", 30, some ⟨.s "A", .s "B1", some 1, some 2, ""⟩⟩,
         ⟨"B", 29, some ⟨.s "B", .s "B1", some 2, some 2, ""⟩⟩,
         ⟨"C", 28, some ⟨.s "C", .null, none, none, ""⟩⟩] 1 1).1, t.batchId = .s "B1") ∧
    ¬ ∃ t ∈ (get_tasks_paginated
        [⟨"A", 30, some ⟨.s "A", .s "B1", some 1, some 2, ""⟩⟩,
         ⟨"B", 29, some ⟨.s "B", .s "B1", some 2, some 2, ""⟩⟩,
         ⟨"C", 28, some ⟨.s "C", .null, none, none, ""⟩⟩] 2 1).1, t.batchId = .s "B1" :=
  ⟨⟨by decide, by decide, by decide⟩,
    batch_atomicity
      [⟨"A", 30, some ⟨.s "A", .s "B1", some 1, some 2, ""⟩⟩,
       ⟨"B", 29, some ⟨.s "B", .s "B1", some 2, some 2, ""⟩⟩,
       ⟨"C", 28, some ⟨.s "C", .null, none, none, ""⟩⟩] 1 1 (.s "B1")
      (by decide) (by decide) (by decide)⟩

/-- Directory exhibiting the difference between the code's cut rule
and the spec's running-count cut rule: one batch of three tasks,
freshest, then one standalone task. -/
def cexDirC3 : List PFile :=
  [⟨"a", 30, some ⟨.s "a", .s "B1", some 1, some 3, ""⟩⟩,
   ⟨"b", 29, some ⟨.s "b", .s "B1", some 2, some 3, ""⟩⟩,
   ⟨"c", 28, some ⟨.s "c", .s "B1", some 3, some 3, ""⟩⟩,
   ⟨"d", 10, some ⟨.s "d", .null, none, none, ""⟩⟩]

/-- C3 counterexample: with page size 2, the running-task-count rule
the claim describes puts only the 3-task batch on page 1 and the
standalone task on page 2, while the code returns 4 tasks on page 1
(two whole groups) and an empty page 2 — the code cuts pages by group
count, not by a running task count. -/
theorem paginate_runcount_cex :
    (get_tasks_paginated cexDirC3 1 2).1 ≠ specPageTasks cexDirC3 1 2 ∧
    (get_tasks_paginated cexDirC3 1 2).1.length = 4 ∧
    (specPageTasks cexDirC3 1 2).length = 3 ∧
    (get_tasks_paginated cexDirC3 2 2).1 = [] ∧
    (specPageTasks cexDirC3 2 2).map PRec.taskId = [.s "d"] := by
  exact ⟨by decide, by decide, by decide, by decide, by decide⟩

/-- C3 amended: pagination cuts page boundaries by a fixed group
count: page `p` is exactly the slice of the ordered group list from
`(p-1)*limit` to `p*limit`, flattened, so boundaries fall only between
groups; since every group is nonempty, whenever `has_more` is true the
returned page still contains at least `limit` tasks (and may contain
more when its groups are multi-member batches). -/
theorem paginate_groupcount_pages (dir : List PFile) (page limit : Nat)
    (hpg : 1 ≤ page) (hl : 1 ≤ limit) :
    (get_tasks_paginated dir page limit).1 =
      ((((orderedOf (collectTasks dir)).drop ((page - 1) * limit)).take limit).map
        GEntry.tasks).flatten.map Prod.fst ∧
    ((get_tasks_paginated dir page limit).2.2 = true →
      limit ≤ (get_tasks_paginated dir page limit).1.length) := by
  by_cases h : collectTasks dir = []
  · constructor
    · rw [get_tasks_paginated_nil dir page limit h]
      have ho : orderedOf (collectTasks dir) = [] := by rw [h]; rfl
      rw [ho]; simp
    · rw [get_tasks_paginated_nil dir page limit h]
      intro hmore
      simp at hmore
  · rw [get_tasks_paginated_eq dir page limit h]
    refine ⟨rfl, ?_⟩
    intro hmore
    have hlt : (page - 1) * limit + limit < (orderedOf (collectTasks dir)).length :=
      of_decide_eq_true hmore
    have hlen : (((orderedOf (collectTasks dir)).drop ((page - 1) * limit)).take
        limit).length = limit := by
      rw [List.length_take, List.length_drop]
      rw [min_eq_left (by omega)]
    have hne : ∀ e ∈ ((orderedOf (collectTasks dir)).drop ((page - 1) * limit)).take
        limit, e.tasks ≠ [] := by
      intro e he
      exact orderedOf_tasks_ne_nil _ e
        (((List.take_sublist _ _).trans (List.drop_sublist _ _)).subset he)
    have hfl := length_le_flatten _ hne
    rw [hlen] at hfl
    rw [List.length_map]
    exact hfl

/-- Witness for C3's amended claim: a store where `has_more` holds and
page 1 indeed returns at least 2 tasks (here 4). -/
theorem paginate_groupcount_pages_witness :
    ((get_tasks_paginated
        [⟨"a", 30, some ⟨.s "a", .s "B1", some 1, some 3, ""⟩⟩,
         ⟨"b", 29, some ⟨.s "b", .s "B1", some 2, some 3, ""⟩⟩,
         ⟨"c", 28, some ⟨.s "c", .s "B1", some 3, some 3, ""⟩⟩,
         ⟨"d", 10, some ⟨.s "d", .null, none, none, ""⟩⟩,
         ⟨"e", 9, some ⟨.s "e", .null, none, none, ""⟩⟩,
         ⟨"f", 8, some ⟨.s "f", .null, none, none, ""⟩⟩] 1 2).1 =
      (((((orderedOf (collectTasks
        [⟨"a", 30, some ⟨.s "a", .s "B1", some 1, some 3, ""⟩⟩,
         ⟨"b", 29, some ⟨.s "b", .s "B1", some 2, some 3, ""⟩⟩,
         ⟨"c", 28, some ⟨.s "c", .s "B1", some 3, some 3, ""⟩⟩,
         ⟨"d", 10, some ⟨.s "d", .null, none, none, ""⟩⟩,
         ⟨"e", 9, some ⟨.s "e", .null, none, none, ""⟩⟩,
         ⟨"f", 8, some ⟨.s "f", .null, none, none, ""⟩⟩])).drop 0).take 2).map
          GEntry.tasks).flatten.map Prod.fst)) ∧
    ((get_tasks_paginated
        [⟨"a", 30, some ⟨.s "a", .s "B1", some 1, some 3, ""⟩⟩,
         ⟨"b", 29, some ⟨.s "b", .s "B1", some 2, some 3, ""⟩⟩,
         ⟨"c", 28, some ⟨.s "c", .s "B1", some 3, some 3, ""⟩⟩,
         ⟨"d", 10, some ⟨.s "d", .null, none, none, ""⟩⟩,
         ⟨"e", 9, some ⟨.s "e", .null, none, none, ""⟩⟩,
         ⟨"f", 8, some ⟨.s "f", .null, none, none, ""⟩⟩] 1 2).2.2 = true ∧
      2 ≤ (get_tasks_paginated
        [⟨"a", 30, some ⟨.s "a", .s "B1", some 1, some 3, ""⟩⟩,
         ⟨"b", 29, some ⟨.s "b", .s "B1", some 2, some 3, ""⟩⟩,
         ⟨"c", 28, some ⟨.s "c", .s "B1", some 3, some 3, ""⟩⟩,
         ⟨"d", 10, some ⟨.s "d", .null, none, none, ""⟩⟩,
         ⟨"e", 9, some ⟨.s "e", .null, none, none, ""⟩⟩,
         ⟨"f", 8, some ⟨.s "f", .null, none, none, ""⟩⟩] 1 2).1.length) :=
  ⟨(paginate_groupcount_pages
      [⟨"a", 30, some ⟨.s "a", .s "B1", some 1, some 3, ""⟩⟩,
       ⟨"b", 29, some ⟨.s "b", .s "B1", some 2, some 3, ""⟩⟩,
       ⟨"c", 28, some ⟨.s "c", .s "B1", some 3, some 3, ""⟩⟩,
       ⟨"d", 10, some ⟨.s "d", .null, none, none, ""⟩⟩,
       ⟨"e", 9, some ⟨.s "e", .null, none, none, ""⟩⟩,
       ⟨"f", 8, some ⟨.s "f", .null, none, none, ""⟩⟩] 1 2
      (by decide) (by decide)).1,
    ⟨by decide,
      (paginate_groupcount_pages
        [⟨"a", 30, some ⟨.s "a", .s "B1", some 1, some 3, ""⟩⟩,
         ⟨"b", 29, some ⟨.s "b", .s "B1", some 2, some 3, ""⟩⟩,
         ⟨"c", 28, some ⟨.s "c", .s "B1", some 3, some 3, ""⟩⟩,
         ⟨"d", 10, some ⟨.s "d", .null, none, none, ""⟩⟩,
         ⟨"e", 9, some ⟨.s "e", .null, none, none, ""⟩⟩,
         ⟨"f", 8, some ⟨.s "f", .null, none, none, ""⟩⟩] 1 2
        (by decide) (by decide)).2 (by decide)⟩⟩

/-- The scanned members of batch `b`, in scan order, with their
mtimes. -/
def batchMembers (dir : List PFile) (b : JVal) : List (PRec × Int) :=
  (collectTasks dir).filter fun p => decide (p.1.batchId = b)

/-- The tasks of batch `b` returned on one page. -/
def pageBatch (dir : List PFile) (b : JVal) (page limit : Nat) : List PRec :=
  (get_tasks_paginated dir page limit).1.filter fun t => decide (t.batchId = b)

/-- Filtering the flattened page for one batch yields either nothing
or the unique hot group's task list whole. -/
theorem filter_page_entries (b : JVal) (R : List (PRec × Int)) (es : List GEntry)
    (hcount : es.countP (hasB b) ≤ 1)
    (hchar : ∀ e ∈ es, hasB b e = true →
      (∀ p ∈ e.tasks, p.1.batchId = b) ∧ e.tasks = R) :
    ((es.map GEntry.tasks).flatten.map Prod.fst).filter
        (fun t => decide (t.batchId = b)) = [] ∨
    ((es.map GEntry.tasks).flatten.map Prod.fst).filter
        (fun t => decide (t.batchId = b)) = R.map Prod.fst := by
  induction es with
  | nil => left; rfl
  | cons e rest ih =>
    have hsum : (((e :: rest).map GEntry.tasks).flatten.map Prod.fst).filter
        (fun t => decide (t.batchId = b)) =
        (e.tasks.map Prod.fst).filter (fun t => decide (t.batchId = b)) ++
        ((rest.map GEntry.tasks).flatten.map Prod.fst).filter
          (fun t => decide (t.batchId = b)) := by
      simp [List.filter_append]
    rw [hsum]
    have hcc := List.countP_cons (hasB b) e rest
    by_cases hh : hasB b e = true
    · obtain ⟨hall, hR⟩ := hchar e (by simp) hh
      have hfe : (e.tasks.map Prod.fst).filter (fun t => decide (t.batchId = b)) =
          e.tasks.map Prod.fst := by
        rw [List.filter_eq_self]
        intro t ht
        obtain ⟨q, hq, rfl⟩ := List.mem_map.mp ht
        exact decide_eq_true (hall q hq)
      have hz : rest.countP (hasB b) = 0 := by
        rw [hcc] at hcount
        simp only [hh, if_true, if_pos] at hcount
        omega
      have hrest : ((rest.map GEntry.tasks).flatten.map Prod.fst).filter
          (fun t => decide (t.batchId = b)) = [] := by
        rw [List.filter_eq_nil_iff]
        intro t ht hdec
        obtain ⟨q, hq, rfl⟩ := List.mem_map.mp ht
        obtain ⟨l, hl, hql⟩ := List.mem_flatten.mp hq
        obtain ⟨e', he', rfl⟩ := List.mem_map.mp hl
        have : hasB b e' = true := List.any_eq_true.mpr ⟨q, hql, hdec⟩
        have hz2 := List.countP_eq_zero.mp hz e' he'
        exact hz2 this
      rw [hfe, hrest, hR]
      right
      simp
    · have hfe : (e.tasks.map Prod.fst).filter (fun t => decide (t.batchId = b)) = [] := by
        rw [List.filter_eq_nil_iff]
        intro t ht hdec
        obtain ⟨q, hq, rfl⟩ := List.mem_map.mp ht
        exact hh (List.any_eq_true.mpr ⟨q, hq, hdec⟩)
      rw [hfe]
      simp only [List.nil_append]
      have hcount' : rest.countP (hasB b) ≤ 1 := by
        rw [hcc] at hcount
        omega
      exact ih hcount' (fun e' he' => hchar e' (List.mem_cons_of_mem _ he'))

/-- C4: if every scanned member of batch `b` declares a `batch_total`
different from the actual member count, then on any page the returned
members of `b` (when present at all) all report `batch_total` equal to
the actual count and carry `batch_index` values forming the contiguous
sequence `1..count` in page order (which is `batch_index`-sorted order
after the repair). -/
theorem batch_self_healing (dir : List PFile) (b : JVal) (page limit : Nat)
    (hb : truthy b = true)
    (hdecl : ∀ p ∈ batchMembers dir b,
      p.1.batchTotal.getD 1 ≠ ((batchMembers dir b).length : Int)) :
    pageBatch dir b page limit = [] ∨
      ((pageBatch dir b page limit).length = (batchMembers dir b).length ∧
        (pageBatch dir b page limit).map (fun t => t.batchTotal) =
          List.replicate (batchMembers dir b).length
            (some ((batchMembers dir b).length : Int)) ∧
        (pageBatch dir b page limit).map (fun t => t.batchIndex) =
          (List.range' 1 (batchMembers dir b).length).map
            (fun j => some ((j : Nat) : Int))) := by
  by_cases h : collectTasks dir = []
  · left
    rw [pageBatch, get_tasks_paginated_nil dir page limit h]
    rfl
  · have hpage : pageBatch dir b page limit =
        (((((orderedOf (collectTasks dir)).drop ((page - 1) * limit)).take limit).map
          GEntry.tasks).flatten.map Prod.fst).filter
            (fun t => decide (t.batchId = b)) := by
      rw [pageBatch, get_tasks_paginated_eq dir page limit h]
    have hcount : (((orderedOf (collectTasks dir)).drop ((page - 1) * limit)).take
        limit).countP (hasB b) ≤ 1 :=
      le_trans (le_trans (List.Sublist.countP_le _ (List.take_sublist _ _))
        (List.Sublist.countP_le _ (List.drop_sublist _ _)))
        (orderedOf_countP_le_one (collectTasks dir) b hb)
    have hchar : ∀ e ∈ ((orderedOf (collectTasks dir)).drop ((page - 1) * limit)).take
        limit, hasB b e = true →
        (∀ p ∈ e.tasks, p.1.batchId = b) ∧
        e.tasks = repairGroup (batchMembers dir b) := by
      intro e he hhe
      exact orderedOf_entry_char (collectTasks dir) b hb e
        (((List.take_sublist _ _).trans (List.drop_sublist _ _)).subset he) hhe
    have hmain := filter_page_entries b (repairGroup (batchMembers dir b)) _ hcount hchar
    rw [← hpage] at hmain
    rcases hmain with hmain | hmain
    · left; exact hmain
    · right
      have hRlen : (repairGroup (batchMembers dir b)).length =
          (batchMembers dir b).length := repairGroup_length _
      have hsortlen : (stableSort leIdx (batchMembers dir b)).length =
          (batchMembers dir b).length := (stableSort_perm leIdx _).length_eq
      have hsorted : ∀ p ∈ stableSort leIdx (batchMembers dir b),
          p.1.batchTotal.getD 1 ≠ ((stableSort leIdx (batchMembers dir b)).length : Int) := by
        intro p hp
        rw [hsortlen]
        exact hdecl p ((stableSort_perm leIdx _).mem_iff.mp hp)
      constructor
      · rw [hmain, List.length_map, hRlen]
      constructor
      · rw [hmain, List.map_map]
        have : (repairGroup (batchMembers dir b)).map (fun p => p.1.batchTotal) =
            List.replicate (batchMembers dir b).length
              (some ((batchMembers dir b).length : Int)) := by
          rw [repairGroup, reindexFrom_map_batchTotal _ _ _ hsorted, hsortlen]
        exact this
      · rw [hmain, List.map_map]
        have : (repairGroup (batchMembers dir b)).map (fun p => p.1.batchIndex) =
            (List.range' 1 (batchMembers dir b).length).map
              (fun j => some ((j : Nat) : Int)) := by
          rw [repairGroup, reindexFrom_map_batchIndex, hsortlen]
        exact this

/-- Witness for C4: three members of batch `B` each declaring
`batch_total = 5`; one `paginate()` call returns them with
`batch_total = 3` and `batch_index` `1, 2, 3`. -/
theorem batch_self_healing_witness :
    (truthy (JVal.s "B") = true ∧
      ∀ p ∈ batchMembers
        [⟨"x", 30, some ⟨.s "x", .s "B", some 1, some 5, ""⟩⟩,
         ⟨"y", 29, some ⟨.s "y", .s "B", some 2, some 5, ""⟩⟩,
         ⟨"z", 28, some ⟨.s "z", .s "B", some 4, some 5, ""⟩⟩] (.s "B"),
        p.1.batchTotal.getD 1 ≠ ((batchMembers
          [⟨"x", 30, some ⟨.s "x", .s "B", some 1, some 5, ""⟩⟩,
           ⟨"y", 29, some ⟨.s "y", .s "B", some 2, some 5, ""⟩⟩,
           ⟨"z", 28, some ⟨.s "z", .s "B", some 4, some 5, ""⟩⟩] (.s "B")).length : Int)) ∧
    (pageBatch
        [⟨"x", 30, some ⟨.s "x", .s "B", some 1, some 5, ""⟩⟩,
         ⟨"y", 29, some ⟨.s "y", .s "B", some 2, some 5, ""⟩⟩,
         ⟨"z", 28, some ⟨.s "z", .s "B", some 4, some 5, ""⟩⟩] (.s "B") 1 10 = [] ∨
      ((pageBatch
          [⟨"x", 30, some ⟨.s "x", .s "B", some 1, some 5, ""⟩⟩,
           ⟨"y", 29, some ⟨.s "y", .s "B", some 2, some 5, ""⟩⟩,
           ⟨"z", 28, some ⟨.s "z", .s "B", some 4, some 5, ""⟩⟩] (.s "B") 1 10).length =
        (batchMembers
          [⟨"x", 30, some ⟨.s "x", .s "B", some 1, some 5, ""⟩⟩,
           ⟨"y", 29, some ⟨.s "y", .s "B", some 2, some 5, ""⟩⟩,
           ⟨"z", 28, some ⟨.s "z", .s "B", some 4, some 5, ""⟩⟩] (.s "B")).length ∧
        (pageBatch
          [⟨"x", 30, some ⟨.s "x", .s "B", some 1, some 5, ""⟩⟩,
           ⟨"y", 29, some ⟨.s "y", .s "B", some 2, some 5, ""⟩⟩,
           ⟨"z", 28, some ⟨.s "z", .s "B", some 4, some 5, ""⟩⟩] (.s "B") 1 10).map
            (fun t => t.batchTotal) =
          List.replicate (batchMembers
            [⟨"x", 30, some ⟨.s "x", .s "B", some 1, some 5, ""⟩⟩,
             ⟨"y", 29, some ⟨.s "y", .s "B", some 2, some 5, ""⟩⟩,
             ⟨"z", 28, some ⟨.s "z", .s "B", some 4, some 5, ""⟩⟩] (.s "B")).length
            (some ((batchMembers
              [⟨"x", 30, some ⟨.s "x", .s "B", some 1, some 5, ""⟩⟩,
               ⟨"y", 29, some ⟨.s "y", .s "B", some 2, some 5, ""⟩⟩,
               ⟨"z", 28, some ⟨.s "z", .s "B", some 4, some 5, ""⟩⟩] (.s "B")).length : Int)) ∧
        (pageBatch
          [⟨"x", 30, some ⟨.s "x", .s "B", some 1, some 5, ""⟩⟩,
           ⟨"y", 29, some ⟨.s "y", .s "B", some 2, some 5, ""⟩⟩,
           ⟨"z", 28, some ⟨.s "z", .s "B", some 4, some 5, ""⟩⟩] (.s "B") 1 10).map
            (fun t => t.batchIndex) =
          (List.range' 1 (batchMembers
            [⟨"x", 30, some ⟨.s "x", .s "B", some 1, some 5, ""⟩⟩,
             ⟨"y", 29, some ⟨.s "y", .s "B", some 2, some 5, ""⟩⟩,
             ⟨"z", 28, some ⟨.s "z", .s "B", some 4, some 5, ""⟩⟩] (.s "B")).length).map
            (fun j => some ((j : Nat) : Int)))) :=
  ⟨⟨by decide, by decide⟩,
    batch_self_healing
      [⟨"x", 30, some ⟨.s "x", .s "B", some 1, some 5, ""⟩⟩,
       ⟨"y", 29, some ⟨.s "y", .s "B", some 2, some 5, ""⟩⟩,
       ⟨"z", 28, some ⟨.s "z", .s "B", some 4, some 5, ""⟩⟩] (.s "B") 1 10
      (by decide) (by decide)⟩

/-- C9: a record file that fails to parse is treated as absent and
never poisons a listing — `get_tasks_paginated` returns exactly what
it would return on the directory with the corrupt files removed, so
every parseable record that belongs on the requested page is still
there; and `read_json` returns `None` both when the file is absent and
when its content fails to parse, without raising. -/
theorem corrupt_files_skipped (dir : List PFile) (page limit : Nat) :
    get_tasks_paginated dir page limit =
      get_tasks_paginated (dir.filter fun f => f.parsed.isSome) page limit ∧
    (∀ loads : String → Option JVal, read_json none loads = none) ∧
    (∀ (c : String) (loads : String → Option JVal), loads c = none →
      read_json (some c) loads = none) := by
  refine ⟨?_, fun loads => rfl, fun c loads hc => by simp [read_json, hc]⟩
  simp only [get_tasks_paginated]
  rw [← collectTasks_filter_parsed]

/-- Witness for C9: a directory with one corrupt file paginates
exactly as the directory without it, and `read_json` absorbs a parse
failure into `none`. -/
theorem corrupt_files_skipped_witness :
    get_tasks_paginated
        [⟨"bad", 99, none⟩, ⟨"C", 28, some ⟨.s "C", .null, none, none, ""⟩⟩] 1 10 =
      get_tasks_paginated
        ([⟨"bad", 99, none⟩, ⟨"C", 28, some ⟨.s "C", .null, none, none, ""⟩⟩].filter
          fun f => f.parsed.isSome) 1 10 ∧
    read_json none (fun _ => some JVal.null) = none ∧
    ((fun _ => (none : Option JVal)) "oops" = none ∧
      read_json (some "oops") (fun _ => (none : Option JVal)) = none) :=
  ⟨(corrupt_files_skipped
      [⟨"bad", 99, none⟩, ⟨"C", 28, some ⟨.s "C", .null, none, none, ""⟩⟩] 1 10).1,
    (corrupt_files_skipped
      [⟨"bad", 99, none⟩, ⟨"C", 28, some ⟨.s "C", .null, none, none, ""⟩⟩] 1 10).2.1 _,
    ⟨rfl, (corrupt_files_skipped
      [⟨"bad", 99, none⟩, ⟨"C", 28, some ⟨.s "C", .null, none, none, ""⟩⟩] 1 10).2.2
        "oops" (fun _ => none) rfl⟩⟩

/-- C10: requesting a page past the end is a harmless no-op — the task
list is empty, the reported total group count is the one page 1
reports, and `has_more` is false; moreover every task returned on any
page has a truthy (non-empty) `task_id`, so records without one —
including the persisted `_index.json` blob, whose content has no
`task_id` — are never returned as tasks. -/
theorem page_past_end_and_task_id (dir : List PFile) (page limit : Nat) :
    ((orderedOf (collectTasks dir)).length ≤ (page - 1) * limit →
      (get_tasks_paginated dir page limit).1 = [] ∧
      (get_tasks_paginated dir page limit).2.1 = (get_tasks_paginated dir 1 limit).2.1 ∧
      (get_tasks_paginated dir page limit).2.2 = false) ∧
    (∀ t ∈ (get_tasks_paginated dir page limit).1, truthy t.taskId = true) := by
  constructor
  · intro hge
    by_cases h : collectTasks dir = []
    · rw [get_tasks_paginated_nil dir page limit h, get_tasks_paginated_nil dir 1 limit h]
      exact ⟨rfl, rfl, rfl⟩
    · rw [get_tasks_paginated_eq dir page limit h, get_tasks_paginated_eq dir 1 limit h]
      refine ⟨?_, rfl, ?_⟩
      · rw [List.drop_eq_nil_of_le hge]
        simp
      · exact decide_eq_false (by omega)
  · intro t ht
    obtain ⟨hne, e, he, m, hm⟩ := mem_page_tasks ht
    have hsub : e ∈ orderedOf (collectTasks dir) :=
      ((List.take_sublist _ _).trans (List.drop_sublist _ _)).subset he
    exact orderedOf_taskId (collectTasks dir) (collectTasks_taskId dir) e hsub (t, m) hm

/-- Witness for C10: on a two-group store, page 5 with page size 10 is
past the end — empty page, total 2 as on page 1, `has_more` false —
and the returned tasks of page 1 all have truthy ids (the `_index`
blob, parsed with no `task_id`, is not among them). -/
theorem page_past_end_and_task_id_witness :
    ((orderedOf (collectTasks
        [⟨"_index", 99, some ⟨.null, .null, none, none, ""⟩⟩,
         ⟨"A", 30, some ⟨.s "A", .null, none, none, ""⟩⟩,
         ⟨"C", 28, some ⟨.s "C", .null, none, none, ""⟩⟩])).length ≤ (5 - 1) * 10 ∧
      (get_tasks_paginated
        [⟨"_index", 99, some ⟨.null, .null, none, none, ""⟩⟩,
         ⟨"A", 30, some ⟨.s "A", .null, none, none, ""⟩⟩,
         ⟨"C", 28, some ⟨.s "C", .null, none, none, ""⟩⟩] 5 10).1 = [] ∧
      (get_tasks_paginated
        [⟨"_index", 99, some ⟨.null, .null, none, none, ""⟩⟩,
         ⟨"A", 30, some ⟨.s "A", .null, none, none, ""⟩⟩,
         ⟨"C", 28, some ⟨.s "C", .null, none, none, ""⟩⟩] 5 10).2.2 = false) ∧
    (∀ t ∈ (get_tasks_paginated
        [⟨"_index", 99, some ⟨.null, .null, none, none, ""⟩⟩,
         ⟨"A", 30, some ⟨.s "A", .null, none, none, ""⟩⟩,
         ⟨"C", 28, some ⟨.s "C", .null, none, none, ""⟩⟩] 1 10).1,
      truthy t.taskId = true) :=
  ⟨⟨by decide,
    ((page_past_end_and_task_id
      [⟨"_index", 99, some ⟨.null, .null, none, none, ""⟩⟩,
       ⟨"A", 30, some ⟨.s "A", .null, none, none, ""⟩⟩,
       ⟨"C", 28, some ⟨.s "C", .null, none, none, ""⟩⟩] 5 10).1 (by decide)).1,
    ((page_past_end_and_task_id
      [⟨"_index", 99, some ⟨.null, .null, none, none, ""⟩⟩,
       ⟨"A", 30, some ⟨.s "A", .null, none, none, ""⟩⟩,
       ⟨"C", 28, some ⟨.s "C", .null, none, none, ""⟩⟩] 5 10).1 (by decide)).2.2⟩,
    (page_past_end_and_task_id
      [⟨"_index", 99, some ⟨.null, .null, none, none, ""⟩⟩,
       ⟨"A", 30, some ⟨.s "A", .null, none, none, ""⟩⟩,
       ⟨"C", 28, some ⟨.s "C", .null, none, none, ""⟩⟩] 1 10).2⟩

/-- Store on which the paginator and the rebuilt index disagree: batch
`B1` (tasks `A`, `B`; mtimes 30, 29) and standalone `C` (mtime 28),
page size 2. -/
def bugDirC1 : List PFile :=
  [⟨"A", 30, some ⟨.s "A", .s "B1", some 1, some 2, ""⟩⟩,
   ⟨"B", 29, some ⟨.s "B", .s "B1", some 2, some 2, ""⟩⟩,
   ⟨"C", 28, some ⟨.s "C", .null, none, none, ""⟩⟩]

/-- C1 (code bug): `rebuild_task_index` cuts pages by a running task
count, so it assigns task `C` page 2 (the two-task batch fills page 1
under page size 2), but `get_tasks_paginated` pages are slices of
`limit` whole groups, so page 1 holds both groups and returns `C`
while page 2 is empty — `locate` after `rebuild` points at a page that
does not contain the task. -/
theorem locate_paginate_divergence :
    (locate_after_rebuild bugDirC1 2 "C").map LocEntry.page = some 2 ∧
    (get_tasks_paginated bugDirC1 1 2).1.map PRec.taskId = [.s "A", .s "B", .s "C"] ∧
    (get_tasks_paginated bugDirC1 2 2).1 = [] := by
  exact ⟨by decide, by decide, by decide⟩

end WanxUI
